import Mathlib

/-!
Shallow embedding of the json-rpc-aggregator core (pool, balancers,
health checker, router) and proofs of the specification claims.

Sources embedded: src/pool.ts, src/balancer.ts, src/health.ts,
src/router.ts, src/types.ts.  JavaScript numbers carrying latencies are
modelled as rationals; counters as naturals; weights as integers.
-/

/-- ASCII lowering of a string, as JavaScript toLowerCase on the
characters that occur in the rate-limit patterns. -/
def lowerStr (s : String) : String :=
  String.mk (s.data.map Char.toLower)

/-- Does the character list `s` start with `pat`? -/
def startsWithL : List Char → List Char → Bool
  | [], _ => true
  | _ :: _, [] => false
  | a :: as, b :: bs => a = b && startsWithL as bs

/-- Does `s` contain `pat` as a contiguous run (JS String.includes)? -/
def containsL (pat : List Char) : List Char → Bool
  | [] => startsWithL pat []
  | c :: rest => startsWithL pat (c :: rest) || containsL pat rest

/-- JS String.includes on strings. -/
def containsStr (s pat : String) : Bool :=
  containsL pat.data s.data

/-- A JSON value, as far as the health checker needs to inspect parsed
upstream bodies. -/
inductive JsonValue where
  | null : JsonValue
  | bool (b : Bool) : JsonValue
  | num (q : ℚ) : JsonValue
  | str (s : String) : JsonValue
  | arr (elems : List JsonValue) : JsonValue
  | obj (fields : List (String × JsonValue)) : JsonValue

/-- JavaScript truthiness of a JSON value (numbers: only 0 is falsy;
strings: only "" is falsy; arrays and objects are always truthy). -/
def JsonValue.truthy : JsonValue → Bool
  | .null => false
  | .bool b => b
  | .num q => q ≠ 0
  | .str s => s ≠ ""
  | .arr _ => true
  | .obj _ => true

/-- Truthiness of an optional member (`undefined` is falsy). -/
def truthyOpt : Option JsonValue → Bool
  | none => false
  | some v => v.truthy

/-- `data.jsonrpc !== "2.0"` test: the member must be the string "2.0". -/
def isJsonrpc2 : Option JsonValue → Bool
  | some (.str s) => s = "2.0"
  | _ => false

/-- One upstream RPC endpoint with its live metrics (types.ts
`RpcEndpoint`). -/
structure Endpoint where
  url : String
  weight : Int
  healthy : Bool
  lastCheck : Nat
  avgResponseTime : ℚ
  failureCount : Nat
  successCount : Nat
  consecutiveFailures : Nat
  consecutiveSuccesses : Nat
deriving DecidableEq

/-- Configuration entry for one endpoint (types.ts `RpcConfig`). -/
structure RpcConfig where
  url : String
  weight : Int
deriving DecidableEq

/-- The pool is a url-keyed map; we model the Map as its value list in
insertion order. -/
abbrev Pool := List Endpoint

/-- The fresh record `addEndpoint` builds (pool.ts lines 19-29). -/
def freshEndpoint (now : Nat) (rpc : RpcConfig) : Endpoint :=
  { url := rpc.url
    weight := rpc.weight
    healthy := true
    lastCheck := now
    avgResponseTime := 0
    failureCount := 0
    successCount := 0
    consecutiveFailures := 0
    consecutiveSuccesses := 0 }

/-- `addEndpoint` (pool.ts): Map.set replaces an existing key in place,
otherwise appends in insertion order. -/
def addEndpoint (now : Nat) (rpc : RpcConfig) (p : Pool) : Pool :=
  if (p.filter (fun e => e.url = rpc.url)).isEmpty then
    p ++ [freshEndpoint now rpc]
  else
    p.map (fun e => if e.url = rpc.url then freshEndpoint now rpc else e)

/-- `removeEndpoint` (pool.ts): Map.delete, returning whether the key
existed. -/
def removeEndpoint (url : String) (p : Pool) : Pool × Bool :=
  (p.filter (fun e => e.url ≠ url), !(p.filter (fun e => e.url = url)).isEmpty)

/-- `getEndpoint` (pool.ts): Map.get. -/
def getEndpoint (url : String) (p : Pool) : Option Endpoint :=
  p.find? (fun e => e.url = url)

/-- `getHealthyEndpoints` (pool.ts). -/
def getHealthyEndpoints (p : Pool) : List Endpoint :=
  p.filter (fun e => e.healthy)

/-- `getHealthyCount` (pool.ts). -/
def getHealthyCount (p : Pool) : Nat :=
  (getHealthyEndpoints p).length

/-- Apply `f` to the endpoint stored under `url`; no-op when absent
(the shared shape of every per-url pool mutator). -/
def updateEndpoint (url : String) (f : Endpoint → Endpoint) (p : Pool) : Pool :=
  p.map (fun e => if e.url = url then f e else e)

/-- Endpoint-level effect of `recordSuccess` (pool.ts lines 68-78):
bump counters, reset the failure streak, and fold the sample into the
exponential moving average (first sample, detected by `avg == 0`, is
taken directly). -/
def recordSuccessE (now : Nat) (responseTime : ℚ) (e : Endpoint) : Endpoint :=
  { e with
    successCount := e.successCount + 1
    consecutiveSuccesses := e.consecutiveSuccesses + 1
    consecutiveFailures := 0
    lastCheck := now
    avgResponseTime :=
      if e.avgResponseTime = 0 then responseTime
      else e.avgResponseTime * 0.8 + responseTime * 0.2 }

/-- Endpoint-level effect of `recordFailure` (pool.ts lines 88-91). -/
def recordFailureE (now : Nat) (e : Endpoint) : Endpoint :=
  { e with
    failureCount := e.failureCount + 1
    consecutiveFailures := e.consecutiveFailures + 1
    consecutiveSuccesses := 0
    lastCheck := now }

/-- Endpoint-level effect of `markUnhealthy` (pool.ts line 101). -/
def markUnhealthyE (e : Endpoint) : Endpoint :=
  { e with healthy := false }

/-- Endpoint-level effect of `markHealthy` (pool.ts lines 119-120). -/
def markHealthyE (e : Endpoint) : Endpoint :=
  { e with healthy := true, consecutiveFailures := 0 }

/-- `recordSuccess` on the pool. -/
def recordSuccess (url : String) (responseTime : ℚ) (now : Nat) (p : Pool) : Pool :=
  updateEndpoint url (recordSuccessE now responseTime) p

/-- `recordFailure` on the pool. -/
def recordFailure (url : String) (now : Nat) (p : Pool) : Pool :=
  updateEndpoint url (recordFailureE now) p

/-- `markUnhealthy` on the pool. -/
def markUnhealthy (url : String) (p : Pool) : Pool :=
  updateEndpoint url markUnhealthyE p

/-- `markHealthy` on the pool. -/
def markHealthy (url : String) (p : Pool) : Pool :=
  updateEndpoint url markHealthyE p

/-- Pool construction (pool.ts constructor): fold `addEndpoint` over the
configured list, starting from the empty map. -/
def mkPool (now : Nat) (rpcs : List RpcConfig) : Pool :=
  rpcs.foldl (fun p r => addEndpoint now r p) []

/-- One pool mutation, for quantifying over operation sequences. -/
inductive PoolOp where
  | add (now : Nat) (rpc : RpcConfig)
  | remove (url : String)
  | recSuccess (url : String) (responseTime : ℚ) (now : Nat)
  | recFailure (url : String) (now : Nat)
  | markH (url : String)
  | markU (url : String)

/-- Interpret one pool mutation. -/
def applyOp (op : PoolOp) (p : Pool) : Pool :=
  match op with
  | .add now rpc => addEndpoint now rpc p
  | .remove url => (removeEndpoint url p).1
  | .recSuccess url rt now => recordSuccess url rt now p
  | .recFailure url now => recordFailure url now p
  | .markH url => markHealthy url p
  | .markU url => markUnhealthy url p

/-- Run a sequence of pool mutations. -/
def applyOps (ops : List PoolOp) (p : Pool) : Pool :=
  ops.foldl (fun q op => applyOp op q) p

/-- The two streak counters of one endpoint are never simultaneously
positive. -/
def streakInv (e : Endpoint) : Prop :=
  (0 < e.consecutiveSuccesses → e.consecutiveFailures = 0) ∧
  (0 < e.consecutiveFailures → e.consecutiveSuccesses = 0)

/-- The streak invariant, for every endpoint of the pool. -/
def poolInv (p : Pool) : Prop :=
  ∀ e ∈ p, streakInv e

instance (e : Endpoint) : Decidable (streakInv e) := by
  unfold streakInv; infer_instance

/-- Health-check configuration (types.ts `HealthCheckConfig`). -/
structure HealthCheckConfig where
  enabled : Bool
  interval : Nat
  timeout : Nat
  unhealthyThreshold : Nat
  healthyThreshold : Nat

/-- Outcome of one health probe's HTTP exchange, as observed by
`checkEndpoint` (health.ts): the fetch can throw, the status can be
non-2xx, the body can fail to parse, or it parses to an envelope with
the three inspected members. -/
inductive ProbeOutcome where
  | fetchError
  | httpError
  | parseError
  | body (jsonrpcField : Option JsonValue) (result : Option JsonValue) (err : Option JsonValue)

/-- health.ts line 101: the probe succeeds when the body parsed after a
2xx status and not (`data.jsonrpc !== "2.0" || (data.error && !data.result)`). -/
def probeSuccess : ProbeOutcome → Bool
  | .body j r e => isJsonrpc2 j && !(truthyOpt e && !truthyOpt r)
  | _ => false

/-- The claim's reading of the success predicate, by member presence:
not (`error` present and `result` absent). -/
def claimProbeSuccess : ProbeOutcome → Bool
  | .body j r e => isJsonrpc2 j && !(e.isSome && r.isNone)
  | _ => false

/-- A `result` member that is absent, or present with a falsy value. -/
def resultAbsentOrFalsy : Option JsonValue → Bool
  | none => true
  | some v => !v.truthy

/-- Amended success predicate: not (`error` truthy and `result` absent
or falsy). -/
def amendedProbeSuccess : ProbeOutcome → Bool
  | .body j r e => isJsonrpc2 j && !(truthyOpt e && resultAbsentOrFalsy r)
  | _ => false

/-- One probe's effect on the pool (health.ts `checkEndpoint`,
lines 94-127): on success record a pool success and mark healthy once
the success streak reaches the threshold; on any failure record a pool
failure and mark unhealthy once the failure streak reaches the
threshold. -/
def healthCheckStep (cfg : HealthCheckConfig) (now : Nat) (responseTime : ℚ)
    (url : String) (out : ProbeOutcome) (p : Pool) : Pool :=
  if probeSuccess out then
    let p1 := recordSuccess url responseTime now p
    match getEndpoint url p1 with
    | none => p1
    | some e =>
      if cfg.healthyThreshold ≤ e.consecutiveSuccesses then markHealthy url p1 else p1
  else
    let p1 := recordFailure url now p
    match getEndpoint url p1 with
    | none => p1
    | some e =>
      if cfg.unhealthyThreshold ≤ e.consecutiveFailures then markUnhealthy url p1 else p1

/-- The spec's description of the moving average: the first sample is
taken directly, every later sample is folded with weight 0.2. -/
def emaSpec : List ℚ → ℚ
  | [] => 0
  | s :: rest => rest.foldl (fun avg x => avg * 0.8 + x * 0.2) s

/-- Fold a sequence of (now, responseTime) success samples into an
endpoint through `recordSuccess`. -/
def recordSuccesses (samples : List (Nat × ℚ)) (e : Endpoint) : Endpoint :=
  samples.foldl (fun acc q => recordSuccessE q.1 q.2 acc) e

/-- JSON-RPC id (string, number, or null; an absent id is `Option.none`
one level up). -/
inductive RpcId where
  | str (s : String)
  | num (n : Int)
  | null
deriving DecidableEq

/-- JSON-RPC request as the router reads it (types.ts). -/
structure JsonRpcRequest where
  method : String
  params : Option JsonValue
  id : Option RpcId

/-- The `data` member of the aggregator's synthesized errors
(router.ts lines 52-56 and 151-155). -/
structure AggData where
  aggregator : Bool
  retriesExhausted : Bool
  healthyEndpoints : Option Nat
  lastError : Option String

/-- Error `data`: either an aggregator-synthesized record or an
arbitrary upstream value. -/
inductive ErrData where
  | agg (a : AggData)
  | upstream (v : JsonValue)

/-- JSON-RPC error object (types.ts `JsonRpcError`). -/
structure JsonRpcError where
  code : Int
  message : String
  data : Option ErrData

/-- JSON-RPC response envelope (types.ts `JsonRpcResponse`). -/
structure JsonRpcResponse where
  jsonrpc : String
  result : Option JsonValue
  error : Option JsonRpcError
  id : RpcId

/-- Routing configuration used by the router (types.ts
`LoadBalancingConfig`, minus the strategy name). -/
structure LoadBalancingConfig where
  retries : Nat
  retryDelay : Nat
  timeout : Nat

/-- One recorded pool interaction of the router. -/
inductive PoolEvent where
  | success (url : String) (duration : ℚ)
  | failure (url : String)
deriving DecidableEq

/-- Router bookkeeping: its three counters plus, for the proofs, the
chronological trace of pool mutations and retry sleeps it performed. -/
structure RouterState where
  requestCount : Nat
  successCount : Nat
  failureCount : Nat
  events : List PoolEvent
  sleeps : List Nat
deriving DecidableEq

/-- What one attempt of `routeSingle` observes: the balancer returned no
endpoint, `forwardRequest` threw, or it returned a well-formed body. -/
inductive AttemptOutcome where
  | noEndpoint
  | exn (url : String) (msg : String)
  | ok (url : String) (resp : JsonRpcResponse) (duration : ℚ)

/-- `isRateLimitError` (router.ts lines 211-220). -/
def isRateLimitError (e : JsonRpcError) : Bool :=
  if e.code = -32005 || e.code = -32016 then true
  else
    let message := lowerStr e.message
    containsStr message "rate limit" || containsStr message "too many requests"

/-- `createErrorResponse` (router.ts lines 225-231). -/
def createErrorResponse (id : RpcId) (err : JsonRpcError) : JsonRpcResponse :=
  { jsonrpc := "2.0", result := none, error := some err, id := id }

/-- The attempt loop of `routeSingle` (router.ts lines 43-156), with
`k` the number of attempts still available (so `k = 0` is the
all-retries-exhausted exit) and `oracle` giving each attempt's observed
outcome.  Pool mutations and sleeps are traced in the state. -/
def routeGo (cfg : LoadBalancingConfig) (healthyCount : Nat)
    (oracle : Nat → AttemptOutcome) (req : JsonRpcRequest) :
    Nat → Nat → Option String → RouterState → JsonRpcResponse × RouterState
  | 0, _, lastErr, st =>
    (createErrorResponse (req.id.getD .null)
      { code := -32603, message := "Request failed after all retries",
        data := some (.agg { aggregator := true, retriesExhausted := true,
                             healthyEndpoints := none, lastError := lastErr }) },
     { st with failureCount := st.failureCount + 1 })
  | k + 1, attempt, lastErr, st =>
    match oracle attempt with
    | .noEndpoint =>
      (createErrorResponse (req.id.getD .null)
        { code := -32603, message := "All RPC endpoints unavailable",
          data := some (.agg { aggregator := true, retriesExhausted := true,
                               healthyEndpoints := some healthyCount, lastError := none }) },
       { st with failureCount := st.failureCount + 1 })
    | .exn url msg =>
      let st1 : RouterState := { st with events := st.events ++ [.failure url] }
      let st2 : RouterState :=
        if 0 < k then { st1 with sleeps := st1.sleeps ++ [cfg.retryDelay] } else st1
      routeGo cfg healthyCount oracle req k (attempt + 1) (some msg) st2
    | .ok url resp duration =>
      match resp.error with
      | some err =>
        if isRateLimitError err then
          let st1 : RouterState := { st with events := st.events ++ [.failure url] }
          if 0 < k then
            routeGo cfg healthyCount oracle req k (attempt + 1) lastErr
              { st1 with sleeps := st1.sleeps ++ [cfg.retryDelay] }
          else
            (resp, { st1 with successCount := st1.successCount + 1,
                              events := st1.events ++ [.success url duration] })
        else
          (resp, { st with successCount := st.successCount + 1,
                           events := st.events ++ [.success url duration] })
      | none =>
        (resp, { st with successCount := st.successCount + 1,
                         events := st.events ++ [.success url duration] })

/-- `routeSingle` (router.ts): bump the request counter and run the
attempt loop with `retries + 1` attempts. -/
def routeSingle (cfg : LoadBalancingConfig) (healthyCount : Nat)
    (oracle : Nat → AttemptOutcome) (req : JsonRpcRequest)
    (st : RouterState) : JsonRpcResponse × RouterState :=
  routeGo cfg healthyCount oracle req (cfg.retries + 1) 1 none
    { st with requestCount := st.requestCount + 1 }

/-- One `selectEndpoint` call of the round-robin balancer
(balancer.ts lines 23-30), over the current healthy snapshot and the
cursor. -/
def rrSelect (healthy : List Endpoint) (i : Nat) : Option Endpoint × Nat :=
  if h : 0 < healthy.length then
    (some (healthy.get ⟨i % healthy.length, Nat.mod_lt i h⟩),
     (i + 1) % healthy.length)
  else (none, i)

/-- `m` consecutive round-robin selections over a fixed healthy
snapshot, collecting the returned endpoints and the final cursor. -/
def rrRun (healthy : List Endpoint) : Nat → Nat → List Endpoint × Nat
  | 0, i => ([], i)
  | m + 1, i =>
    match rrSelect healthy i with
    | (some e, i1) => let r := rrRun healthy m i1; (e :: r.1, r.2)
    | (none, i1) => ([], i1)

/-- The latency comparator of balancer.ts lines 90-95, as the decision
"the comparator returns ≤ 0 on (a, b)": an endpoint with no samples
(`avgResponseTime == 0`) sorts after everything. -/
def latLE (a b : Endpoint) : Bool :=
  if a.avgResponseTime = 0 then false
  else if b.avgResponseTime = 0 then true
  else a.avgResponseTime ≤ b.avgResponseTime

/-- Insertion step of the sort on the copied healthy snapshot. -/
def insertLat (x : Endpoint) : List Endpoint → List Endpoint
  | [] => [x]
  | y :: ys => if latLE x y then x :: y :: ys else y :: insertLat x ys

/-- The sort `[...healthy].sort(cmp)` of the latency balancer. -/
def sortLat : List Endpoint → List Endpoint
  | [] => []
  | x :: xs => insertLat x (sortLat xs)

/-- `LatencyBasedBalancer.selectEndpoint` (balancer.ts lines 85-98):
sort the snapshot and return its first element. -/
def latencySelect (healthy : List Endpoint) : Option Endpoint :=
  (sortLat healthy).head?

/-- Cursor state of the weighted round-robin balancer
(balancer.ts lines 38-39). -/
structure WrrState where
  currentIndex : Nat
  currentWeight : Int
deriving DecidableEq

/-- `Math.max(...healthy.map(ep => ep.weight))` for a non-empty
snapshot. -/
def maxWeight (healthy : List Endpoint) : Int :=
  match (healthy.map (fun e => e.weight)).max? with
  | some m => m
  | none => 0

/-- The current-weight update performed when the cursor wraps to 0
(balancer.ts lines 51-55): decrement, resetting to the maximum weight
when the result drops to ≤ 0. -/
def wrrDec (healthy : List Endpoint) (c : Int) : Int :=
  if c - 1 ≤ 0 then maxWeight healthy else c - 1

/-- One iteration of the `while (true)` loop's cursor update
(balancer.ts lines 49-56): advance the index modulo the length; on a
wrap to 0, apply the current-weight update. -/
def wrrStep (healthy : List Endpoint) (s : WrrState) : WrrState :=
  let i1 := (s.currentIndex + 1) % healthy.length
  ⟨i1, if i1 = 0 then wrrDec healthy s.currentWeight else s.currentWeight⟩

/-- Invariant on reachable balancer states: the cursor is in range and
the current weight never exceeds the maximum weight (both hold for the
initial state `⟨0, 0⟩` of a fresh balancer and are preserved by the
loop). -/
def wrrInv (healthy : List Endpoint) (s : WrrState) : Prop :=
  s.currentIndex < healthy.length ∧ s.currentWeight ≤ maxWeight healthy

/-- The loop's exit test (balancer.ts lines 58-61): the endpoint at the
cursor exists and its weight is at least the current weight. -/
def wrrHitE (healthy : List Endpoint) (s : WrrState) : Option Endpoint :=
  match healthy.get? s.currentIndex with
  | some e => if s.currentWeight ≤ e.weight then some e else none
  | none => none

/-- The `while (true)` loop of `WeightedRoundRobinBalancer
.selectEndpoint`, with explicit fuel (the code's loop is unbounded; the
termination theorem shows fuel `healthy.length` always suffices). -/
def selectFuel (healthy : List Endpoint) : Nat → WrrState → Option (Endpoint × WrrState)
  | 0, _ => none
  | fuel + 1, s =>
    let s1 := wrrStep healthy s
    match wrrHitE healthy s1 with
    | some e => some (e, s1)
    | none => selectFuel healthy fuel s1

/-- Iterated cursor update. -/
def wrrIter (healthy : List Endpoint) : Nat → WrrState → WrrState
  | 0, s => s
  | t + 1, s => wrrIter healthy t (wrrStep healthy s)

/-- The endpoints the loop would return along the first `t` iterations
from `s` (the selection sequence of consecutive `selectEndpoint` calls
is the subsequence of hitting iterations of this chain). -/
def wrrHits (healthy : List Endpoint) : Nat → WrrState → List Endpoint
  | 0, _ => []
  | t + 1, s =>
    let s1 := wrrStep healthy s
    (wrrHitE healthy s1).toList ++ wrrHits healthy t s1

/-- `m` consecutive weighted-round-robin `selectEndpoint()` calls, each
run with fuel `healthy.length`. -/
def wrrRun (healthy : List Endpoint) : Nat → WrrState → Option (List Endpoint × WrrState)
  | 0, s => some ([], s)
  | m + 1, s =>
    match selectFuel healthy healthy.length s with
    | some (e, s1) =>
      match wrrRun healthy m s1 with
      | some (l, s2) => some (e :: l, s2)
      | none => none
    | none => none

/-! ### Pool invariant lemmas (C6) -/

theorem streakInv_freshEndpoint (now : Nat) (rpc : RpcConfig) :
    streakInv (freshEndpoint now rpc) := by
  simp [streakInv, freshEndpoint]

theorem streakInv_recordSuccessE (now : Nat) (rt : ℚ) (e : Endpoint) :
    streakInv (recordSuccessE now rt e) := by
  simp [streakInv, recordSuccessE]

theorem streakInv_recordFailureE (now : Nat) (e : Endpoint) :
    streakInv (recordFailureE now e) := by
  simp [streakInv, recordFailureE]

theorem streakInv_markHealthyE (e : Endpoint) :
    streakInv (markHealthyE e) := by
  simp [streakInv, markHealthyE]

theorem streakInv_markUnhealthyE (e : Endpoint) (h : streakInv e) :
    streakInv (markUnhealthyE e) := by
  simpa [streakInv, markUnhealthyE] using h

theorem poolInv_updateEndpoint (url : String) (f : Endpoint → Endpoint) (p : Pool)
    (hf : ∀ e, streakInv e → streakInv (f e)) (hp : poolInv p) :
    poolInv (updateEndpoint url f p) := by
  intro x hx
  obtain ⟨e, he, rfl⟩ := List.mem_map.mp hx
  by_cases h : e.url = url
  · simpa [h] using hf e (hp e he)
  · simpa [h] using hp e he

theorem poolInv_addEndpoint (now : Nat) (rpc : RpcConfig) (p : Pool)
    (hp : poolInv p) : poolInv (addEndpoint now rpc p) := by
  unfold addEndpoint
  split
  · intro x hx
    rcases List.mem_append.mp hx with h | h
    · exact hp x h
    · rcases List.mem_singleton.mp h with rfl
      exact streakInv_freshEndpoint now rpc
  · intro x hx
    obtain ⟨e, he, rfl⟩ := List.mem_map.mp hx
    by_cases h : e.url = rpc.url
    · simpa [h] using streakInv_freshEndpoint now rpc
    · simpa [h] using hp e he

theorem poolInv_applyOp (op : PoolOp) (p : Pool) (hp : poolInv p) :
    poolInv (applyOp op p) := by
  cases op with
  | add now rpc => exact poolInv_addEndpoint now rpc p hp
  | remove url =>
    intro x hx
    exact hp x (List.mem_of_mem_filter hx)
  | recSuccess url rt now =>
    exact poolInv_updateEndpoint url _ p (fun e _ => streakInv_recordSuccessE now rt e) hp
  | recFailure url now =>
    exact poolInv_updateEndpoint url _ p (fun e _ => streakInv_recordFailureE now e) hp
  | markH url =>
    exact poolInv_updateEndpoint url _ p (fun e _ => streakInv_markHealthyE e) hp
  | markU url =>
    exact poolInv_updateEndpoint url _ p (fun e h => streakInv_markUnhealthyE e h) hp

theorem poolInv_applyOps (ops : List PoolOp) :
    ∀ p : Pool, poolInv p → poolInv (applyOps ops p) := by
  induction ops with
  | nil => exact fun p hp => hp
  | cons op rest ih =>
    intro p hp
    exact ih (applyOp op p) (poolInv_applyOp op p hp)

theorem poolInv_mkPool (now : Nat) (rpcs : List RpcConfig) :
    poolInv (mkPool now rpcs) := by
  unfold mkPool
  have h : ∀ (l : List RpcConfig) (p : Pool), poolInv p →
      poolInv (l.foldl (fun q r => addEndpoint now r q) p) := by
    intro l
    induction l with
    | nil => exact fun p hp => hp
    | cons r rest ih =>
      intro p hp
      exact ih (addEndpoint now r p) (poolInv_addEndpoint now r p hp)
  exact h rpcs [] (by intro e he; cases he)

/-- C6: starting from pool construction, every sequence of pool
operations preserves the invariant that the two streak counters of every
endpoint are never simultaneously positive. -/
theorem c6_streaks_mutually_exclusive (ops : List PoolOp) (now : Nat)
    (rpcs : List RpcConfig) :
    poolInv (applyOps ops (mkPool now rpcs)) :=
  poolInv_applyOps ops (mkPool now rpcs) (poolInv_mkPool now rpcs)

/-! ### Moving-average lemmas (C9) -/

theorem recordSuccesses_pos (l : List (Nat × ℚ)) :
    ∀ e : Endpoint, 0 < e.avgResponseTime → (∀ q ∈ l, 0 < q.2) →
    (recordSuccesses l e).avgResponseTime =
      l.foldl (fun avg x => avg * 0.8 + x.2 * 0.2) e.avgResponseTime := by
  induction l with
  | nil => intro e _ _; rfl
  | cons q rest ih =>
    intro e h hl
    have hq : 0 < q.2 := hl q (List.mem_cons_self q rest)
    have hne : e.avgResponseTime ≠ 0 := ne_of_gt h
    have step : (recordSuccessE q.1 q.2 e).avgResponseTime =
        e.avgResponseTime * 0.8 + q.2 * 0.2 := by
      simp [recordSuccessE, hne]
    have hpos : 0 < (recordSuccessE q.1 q.2 e).avgResponseTime := by
      rw [step]
      have h1 : 0 < e.avgResponseTime * 0.8 := by positivity
      have h2 : 0 < q.2 * 0.2 := by positivity
      linarith
    have hrest : ∀ x ∈ rest, 0 < x.2 := fun x hx => hl x (List.mem_cons_of_mem q hx)
    show (recordSuccesses rest (recordSuccessE q.1 q.2 e)).avgResponseTime = _
    rw [ih _ hpos hrest, step, List.foldl_cons]

/-- C9 counterexample: after the sample sequence `[0, 10]` the code's
average is 10 (the `avg == 0` sentinel treats the second sample as the
first), while the claimed rule `prev*0.8 + sample*0.2` demands 2. -/
theorem c9_zero_sample_counterexample :
    (recordSuccesses [(0, 0), (0, 10)] (freshEndpoint 0 ⟨"u", 1⟩)).avgResponseTime ≠
        emaSpec [0, 10] ∧
    (recordSuccesses [(0, 0), (0, 10)] (freshEndpoint 0 ⟨"u", 1⟩)).avgResponseTime = 10 ∧
    emaSpec [0, 10] = 2 := by
  refine ⟨?_, ?_, ?_⟩ <;>
    norm_num [recordSuccesses, recordSuccessE, freshEndpoint, emaSpec]

/-- C9 amended: `recordFailure` never changes `avgResponseTime`, and for
every sequence of positive samples starting from a zero average the code
realizes the spec's moving average exactly (the first sample is taken
directly, later samples fold with weight 0.2); sequences containing a
zero sample are excluded because `avg == 0` is the code's no-samples
sentinel. -/
theorem c9_ema_amended :
    (∀ (now : Nat) (e : Endpoint),
        (recordFailureE now e).avgResponseTime = e.avgResponseTime) ∧
    ∀ (samples : List (Nat × ℚ)) (e : Endpoint),
      e.avgResponseTime = 0 → (∀ q ∈ samples, 0 < q.2) →
      (recordSuccesses samples e).avgResponseTime = emaSpec (samples.map Prod.snd) := by
  constructor
  · intro now e; rfl
  · intro samples e h0 hl
    cases samples with
    | nil => simpa [recordSuccesses, emaSpec] using h0
    | cons q rest =>
      have hq : 0 < q.2 := hl q (List.mem_cons_self q rest)
      have hstep : (recordSuccessE q.1 q.2 e).avgResponseTime = q.2 := by
        simp [recordSuccessE, h0]
      have hrest : ∀ x ∈ rest, 0 < x.2 := fun x hx => hl x (List.mem_cons_of_mem q hx)
      have := recordSuccesses_pos rest (recordSuccessE q.1 q.2 e) (by rw [hstep]; exact hq) hrest
      show (recordSuccesses rest (recordSuccessE q.1 q.2 e)).avgResponseTime = _
      rw [this, hstep, List.map_cons, emaSpec, List.foldl_map]

theorem c9_ema_amended_witness :
    (recordSuccesses [(0, 4), (1, 6)] (freshEndpoint 0 ⟨"u", 1⟩)).avgResponseTime =
      emaSpec [4, 6] :=
  c9_ema_amended.2 [(0, 4), (1, 6)] (freshEndpoint 0 ⟨"u", 1⟩) rfl (by
    intro q hq
    rcases List.mem_cons.mp hq with rfl | hq
    · norm_num
    · rcases List.mem_singleton.mp hq with rfl
      norm_num)

/-! ### Router theorems (C5, C1) -/

/-- C5: on any attempt with at least one attempt remaining, a balancer
returning no endpoint makes `routeSingle` return the synthesized
`-32603` "All RPC endpoints unavailable" error carrying the current
healthy count, with the request's id (null when absent), no further
attempts, no retry sleep, no pool mutation, and exactly one
failed-request increment. -/
theorem c5_no_endpoint_terminal (cfg : LoadBalancingConfig) (healthyCount : Nat)
    (oracle : Nat → AttemptOutcome) (req : JsonRpcRequest) (k attempt : Nat)
    (lastErr : Option String) (st : RouterState)
    (h : oracle attempt = .noEndpoint) :
    routeGo cfg healthyCount oracle req (k + 1) attempt lastErr st =
      (createErrorResponse (req.id.getD .null)
        { code := -32603, message := "All RPC endpoints unavailable",
          data := some (.agg { aggregator := true, retriesExhausted := true,
                               healthyEndpoints := some healthyCount,
                               lastError := none }) },
       { st with failureCount := st.failureCount + 1 }) := by
  simp [routeGo, h]

theorem c5_no_endpoint_terminal_witness :
    routeGo ⟨2, 50, 1000⟩ 0 (fun _ => .noEndpoint) ⟨"eth_blockNumber", none, none⟩
        3 1 none ⟨1, 0, 0, [], []⟩ =
      (createErrorResponse .null
        { code := -32603, message := "All RPC endpoints unavailable",
          data := some (.agg { aggregator := true, retriesExhausted := true,
                               healthyEndpoints := some 0, lastError := none }) },
       ⟨1, 0, 1, [], []⟩) :=
  c5_no_endpoint_terminal ⟨2, 50, 1000⟩ 0 (fun _ => .noEndpoint)
    ⟨"eth_blockNumber", none, none⟩ 2 1 none ⟨1, 0, 0, [], []⟩ rfl

/-- C1: on the final attempt (`attempt = retries + 1`, no attempts
remaining) a well-formed body carrying a rate-limit-classified error
makes `routeSingle` record a pool failure against that endpoint and then
return the upstream body unchanged, counting the call as a successful
aggregator request (the code falls through to the pass-through branch,
which also records a pool success). -/
theorem c1_final_attempt_rate_limit (cfg : LoadBalancingConfig) (healthyCount : Nat)
    (oracle : Nat → AttemptOutcome) (req : JsonRpcRequest)
    (lastErr : Option String) (st : RouterState) (url : String)
    (resp : JsonRpcResponse) (duration : ℚ) (err : JsonRpcError)
    (hor : oracle (cfg.retries + 1) = .ok url resp duration)
    (herr : resp.error = some err)
    (hrl : isRateLimitError err = true) :
    routeGo cfg healthyCount oracle req 1 (cfg.retries + 1) lastErr st =
      (resp,
       { st with successCount := st.successCount + 1,
                 events := st.events ++ [.failure url, .success url duration] }) := by
  simp [routeGo, hor, herr, hrl]
theorem c1_witness :
    routeGo ⟨0, 50, 1000⟩ 2 (fun _ => .ok "A"
        { jsonrpc := "2.0", result := none,
          error := some { code := -32005, message := "rate limited", data := none },
          id := .num 1 } 7)
      ⟨"eth_call", none, some (.num 1)⟩ 1 1 none ⟨1, 0, 0, [], []⟩ =
      ({ jsonrpc := "2.0", result := none,
         error := some { code := -32005, message := "rate limited", data := none },
         id := .num 1 },
       ⟨1, 1, 0, [.failure "A", .success "A" 7], []⟩) :=
  c1_final_attempt_rate_limit ⟨0, 50, 1000⟩ 2 _ _ none ⟨1, 0, 0, [], []⟩ "A" _ 7
    { code := -32005, message := "rate limited", data := none } rfl rfl (by decide)
theorem getEndpoint_updateEndpoint (url : String) (f : Endpoint → Endpoint)
    (hf : ∀ e, (f e).url = e.url) (p : Pool) :
    getEndpoint url (updateEndpoint url f p) = (getEndpoint url p).map f := by
  induction p with
  | nil => rfl
  | cons x xs ih =>
    by_cases h : x.url = url
    · show getEndpoint url ((if x.url = url then f x else x) :: updateEndpoint url f xs) = _
      rw [if_pos h, getEndpoint, getEndpoint,
        List.find?_cons_of_pos _ (by simp [hf x, h]),
        List.find?_cons_of_pos _ (by simp [h])]
      rfl
    · show getEndpoint url ((if x.url = url then f x else x) :: updateEndpoint url f xs) = _
      rw [if_neg h, getEndpoint, getEndpoint,
        List.find?_cons_of_neg _ (by simp [h]),
        List.find?_cons_of_neg _ (by simp [h])]
      exact ih

theorem healthCheckStep_getEndpoint (cfg : HealthCheckConfig) (now : Nat) (rt : ℚ)
    (url : String) (out : ProbeOutcome) (p : Pool) (e : Endpoint)
    (he : getEndpoint url p = some e) :
    getEndpoint url (healthCheckStep cfg now rt url out p) =
      some (if probeSuccess out then
              (let e1 := recordSuccessE now rt e
               if cfg.healthyThreshold ≤ e1.consecutiveSuccesses then markHealthyE e1 else e1)
            else
              (let e1 := recordFailureE now e
               if cfg.unhealthyThreshold ≤ e1.consecutiveFailures then markUnhealthyE e1 else e1)) := by
  have hs : getEndpoint url (recordSuccess url rt now p) = some (recordSuccessE now rt e) := by
    rw [recordSuccess, getEndpoint_updateEndpoint url (recordSuccessE now rt) (fun _ => rfl) p, he]
    rfl
  have hfl : getEndpoint url (recordFailure url now p) = some (recordFailureE now e) := by
    rw [recordFailure, getEndpoint_updateEndpoint url (recordFailureE now) (fun _ => rfl) p, he]
    rfl
  unfold healthCheckStep
  by_cases hps : probeSuccess out
  · rw [if_pos hps, if_pos hps]
    simp only [hs]
    by_cases ht : cfg.healthyThreshold ≤ (recordSuccessE now rt e).consecutiveSuccesses
    · rw [if_pos ht, if_pos ht, markHealthy,
        getEndpoint_updateEndpoint url markHealthyE (fun _ => rfl) _, hs]
      rfl
    · rw [if_neg ht, if_neg ht, hs]
  · rw [if_neg hps, if_neg hps]
    simp only [hfl]
    by_cases ht : cfg.unhealthyThreshold ≤ (recordFailureE now e).consecutiveFailures
    · rw [if_pos ht, if_pos ht, markUnhealthy,
        getEndpoint_updateEndpoint url markUnhealthyE (fun _ => rfl) _, hfl]
      rfl
    · rw [if_neg ht, if_neg ht, hfl]

/-- C2: under the health-checker probe step with `unhealthyThreshold = 3`,
an endpoint that is healthy with a zero failure streak is still healthy
after two consecutive probe failures, becomes unhealthy exactly upon the
third, and any successful probe resets the failure streak to 0. -/
theorem c2_hysteresis_threshold_three (cfg : HealthCheckConfig) (p : Pool) (url : String)
    (e : Endpoint) (n1 n2 n3 : Nat) (q1 q2 q3 : ℚ) (o1 o2 o3 : ProbeOutcome)
    (hthr : cfg.unhealthyThreshold = 3)
    (he : getEndpoint url p = some e)
    (hh : e.healthy = true) (hcf : e.consecutiveFailures = 0)
    (hf1 : probeSuccess o1 = false) (hf2 : probeSuccess o2 = false)
    (hf3 : probeSuccess o3 = false) :
    (∃ e1, getEndpoint url (healthCheckStep cfg n1 q1 url o1 p) = some e1 ∧
       e1.healthy = true ∧ e1.consecutiveFailures = 1) ∧
    (∃ e2, getEndpoint url (healthCheckStep cfg n2 q2 url o2
        (healthCheckStep cfg n1 q1 url o1 p)) = some e2 ∧
       e2.healthy = true ∧ e2.consecutiveFailures = 2) ∧
    (∃ e3, getEndpoint url (healthCheckStep cfg n3 q3 url o3
        (healthCheckStep cfg n2 q2 url o2
          (healthCheckStep cfg n1 q1 url o1 p))) = some e3 ∧
       e3.healthy = false ∧ e3.consecutiveFailures = 3) ∧
    (∀ (p' : Pool) (e' : Endpoint) (n : Nat) (q : ℚ) (o : ProbeOutcome),
       getEndpoint url p' = some e' → probeSuccess o = true →
       ∃ e'', getEndpoint url (healthCheckStep cfg n q url o p') = some e'' ∧
         e''.consecutiveFailures = 0) := by
  have step1 := healthCheckStep_getEndpoint cfg n1 q1 url o1 p e he
  have hc1 : (recordFailureE n1 e).consecutiveFailures = 1 := by
    simp [recordFailureE, hcf]
  have h1 : getEndpoint url (healthCheckStep cfg n1 q1 url o1 p) =
      some (recordFailureE n1 e) := by
    rw [step1, hf1]
    simp [hc1, hthr]
  have step2 := healthCheckStep_getEndpoint cfg n2 q2 url o2 _ _ h1
  have hc2 : (recordFailureE n2 (recordFailureE n1 e)).consecutiveFailures = 2 := by
    simp [recordFailureE, hcf]
  have h2 : getEndpoint url (healthCheckStep cfg n2 q2 url o2
      (healthCheckStep cfg n1 q1 url o1 p)) =
      some (recordFailureE n2 (recordFailureE n1 e)) := by
    rw [step2, hf2]
    simp [hc2, hthr]
  have step3 := healthCheckStep_getEndpoint cfg n3 q3 url o3 _ _ h2
  have hc3 : (recordFailureE n3 (recordFailureE n2 (recordFailureE n1 e))).consecutiveFailures = 3 := by
    simp [recordFailureE, hcf]
  have h3 : getEndpoint url (healthCheckStep cfg n3 q3 url o3
      (healthCheckStep cfg n2 q2 url o2 (healthCheckStep cfg n1 q1 url o1 p))) =
      some (markUnhealthyE (recordFailureE n3 (recordFailureE n2 (recordFailureE n1 e)))) := by
    rw [step3, hf3]
    simp [hc3, hthr]
  refine ⟨⟨recordFailureE n1 e, h1, by simp [recordFailureE, hh], hc1⟩,
          ⟨recordFailureE n2 (recordFailureE n1 e), h2, by simp [recordFailureE, hh], hc2⟩,
          ⟨_, h3, rfl, by simp [markUnhealthyE, hc3]⟩,
          ?_⟩
  intro p' e' n q o hgp hpo
  have h := healthCheckStep_getEndpoint cfg n q url o p' e' hgp
  rw [hpo] at h
  simp only [eq_self_iff_true, if_true] at h
  by_cases ht : cfg.healthyThreshold ≤ (recordSuccessE n q e').consecutiveSuccesses
  · rw [if_pos ht] at h
    exact ⟨_, h, rfl⟩
  · rw [if_neg ht] at h
    exact ⟨_, h, rfl⟩

theorem c2_hysteresis_threshold_three_witness :
    (∃ e1, getEndpoint "u" (healthCheckStep ⟨true, 0, 0, 3, 2⟩ 0 0 "u" .fetchError
        [freshEndpoint 0 ⟨"u", 1⟩]) = some e1 ∧
      e1.healthy = true ∧ e1.consecutiveFailures = 1) ∧
    (∃ e3, getEndpoint "u" (healthCheckStep ⟨true, 0, 0, 3, 2⟩ 0 0 "u" .fetchError
        (healthCheckStep ⟨true, 0, 0, 3, 2⟩ 0 0 "u" .fetchError
          (healthCheckStep ⟨true, 0, 0, 3, 2⟩ 0 0 "u" .fetchError
            [freshEndpoint 0 ⟨"u", 1⟩]))) = some e3 ∧
      e3.healthy = false ∧ e3.consecutiveFailures = 3) :=
  let h := c2_hysteresis_threshold_three ⟨true, 0, 0, 3, 2⟩ [freshEndpoint 0 ⟨"u", 1⟩]
    "u" (freshEndpoint 0 ⟨"u", 1⟩) 0 0 0 0 0 0 .fetchError .fetchError .fetchError
    rfl rfl rfl rfl rfl rfl rfl
  ⟨h.1, h.2.2.1⟩

/-- C4 counterexample: a 2xx body `{jsonrpc:"2.0", error:{...}, result:null}`
has `error` present and `result` present (so the claim calls it a
success), but the code's truthiness test `data.error && !data.result`
classifies it as a failure and the probe step records a pool failure. -/
theorem c4_null_result_counterexample :
    claimProbeSuccess (.body (some (.str "2.0")) (some .null) (some (.obj []))) = true ∧
    probeSuccess (.body (some (.str "2.0")) (some .null) (some (.obj []))) = false ∧
    (healthCheckStep ⟨true, 0, 0, 3, 2⟩ 0 0 "u"
        (.body (some (.str "2.0")) (some .null) (some (.obj [])))
        [freshEndpoint 0 ⟨"u", 1⟩]).map
      (fun e => (e.failureCount, e.successCount)) = [(1, 0)] :=
  ⟨rfl, rfl, rfl⟩

/-- C4 amended: a probe is classified a success iff the HTTP response is
2xx, the body parses with `jsonrpc == "2.0"`, and not (`error` truthy and
`result` absent or falsy); the probe step then runs the
recordSuccess/markHealthy path exactly on that condition and the
recordFailure/markUnhealthy path otherwise. -/
theorem c4_probe_classification_amended :
    (∀ out, probeSuccess out = amendedProbeSuccess out) ∧
    (∀ (cfg : HealthCheckConfig) (now : Nat) (rt : ℚ) (url : String) (p : Pool)
       (out : ProbeOutcome) (e : Endpoint), getEndpoint url p = some e →
      getEndpoint url (healthCheckStep cfg now rt url out p) =
        some (if amendedProbeSuccess out then
                (let e1 := recordSuccessE now rt e
                 if cfg.healthyThreshold ≤ e1.consecutiveSuccesses then markHealthyE e1 else e1)
              else
                (let e1 := recordFailureE now e
                 if cfg.unhealthyThreshold ≤ e1.consecutiveFailures then markUnhealthyE e1
                 else e1))) := by
  have hpe : ∀ out, probeSuccess out = amendedProbeSuccess out := by
    intro out
    cases out with
    | body j r e =>
      cases r with
      | none => rfl
      | some v => rfl
    | fetchError => rfl
    | httpError => rfl
    | parseError => rfl
  refine ⟨hpe, ?_⟩
  intro cfg now rt url p out e he
  rw [← hpe out]
  exact healthCheckStep_getEndpoint cfg now rt url out p e he

theorem c4_probe_classification_amended_witness :
    getEndpoint "u" (healthCheckStep ⟨true, 0, 0, 3, 2⟩ 5 0 "u" .fetchError
        [freshEndpoint 0 ⟨"u", 1⟩]) =
      some (recordFailureE 5 (freshEndpoint 0 ⟨"u", 1⟩)) :=
  c4_probe_classification_amended.2 ⟨true, 0, 0, 3, 2⟩ 5 0 "u"
    [freshEndpoint 0 ⟨"u", 1⟩] .fetchError (freshEndpoint 0 ⟨"u", 1⟩) rfl

theorem latLE_true {a b : Endpoint} (h : latLE a b = true) :
    a.avgResponseTime ≠ 0 ∧
      (b.avgResponseTime = 0 ∨ a.avgResponseTime ≤ b.avgResponseTime) := by
  unfold latLE at h
  split_ifs at h with h1 h2
  · exact ⟨h1, Or.inl h2⟩
  · exact ⟨h1, Or.inr (by simpa using h)⟩

theorem latLE_false {a b : Endpoint} (h : latLE a b = false) :
    a.avgResponseTime = 0 ∨
      (b.avgResponseTime ≠ 0 ∧ b.avgResponseTime < a.avgResponseTime) := by
  unfold latLE at h
  split_ifs at h with h1 h2
  · exact Or.inl h1
  · exact Or.inr ⟨h2, not_le.mp (by simpa using h)⟩

theorem sortLat_head (l : List Endpoint) (hne : l ≠ []) :
    ∃ r, (sortLat l).head? = some r ∧ r ∈ l ∧
      (∀ e ∈ l, e.avgResponseTime ≠ 0 →
        r.avgResponseTime ≠ 0 ∧ r.avgResponseTime ≤ e.avgResponseTime) := by
  induction l with
  | nil => exact absurd rfl hne
  | cons x xs ih =>
    cases hxs : xs with
    | nil =>
      subst hxs
      refine ⟨x, rfl, List.mem_cons_self x [], ?_⟩
      intro e he hz
      rcases List.mem_singleton.mp he with rfl
      exact ⟨hz, le_refl _⟩
    | cons y ys =>
      rw [← hxs]
      obtain ⟨r, hr, hmem, hmin⟩ := ih (by rw [hxs]; exact List.cons_ne_nil y ys)
      obtain ⟨t, ht⟩ : ∃ t, sortLat xs = r :: t := by
        cases hsx : sortLat xs with
        | nil => rw [hsx] at hr; cases hr
        | cons a t =>
          rw [hsx] at hr
          exact ⟨t, by injection hr with h; rw [h]⟩
      have hsort : sortLat (x :: xs) = insertLat x (r :: t) := by
        rw [sortLat, ht]
      by_cases hle : latLE x r
      · refine ⟨x, ?_, List.mem_cons_self x xs, ?_⟩
        · rw [hsort, insertLat, if_pos hle]
          rfl
        · intro e he hz
          obtain ⟨hx0, hxr⟩ := latLE_true hle
          rcases List.mem_cons.mp he with rfl | hexs
          · exact ⟨hx0, le_refl _⟩
          · obtain ⟨hr0, hre⟩ := hmin e hexs hz
            rcases hxr with h0 | hxle
            · exact absurd h0 hr0
            · exact ⟨hx0, le_trans hxle hre⟩
      · refine ⟨r, ?_, List.mem_cons_of_mem x hmem, ?_⟩
        · rw [hsort, insertLat, if_neg hle]
          rfl
        · intro e he hz
          rcases List.mem_cons.mp he with rfl | hexs
          · rcases latLE_false (eq_false_of_ne_true hle) with h0 | ⟨hr0, hrx⟩
            · exact absurd h0 hz
            · exact ⟨hr0, le_of_lt hrx⟩
          · exact hmin e hexs hz

/-- C7: the latency balancer returns a member of the healthy snapshot;
whenever some healthy endpoint has a positive average response time, the
returned endpoint has a positive average that is minimal among them — in
particular a no-sample endpoint (`avgResponseTime == 0`) is never
returned ahead of one with a positive average. -/
theorem c7_latency_selects_min_positive (healthy : List Endpoint)
    (hne : healthy ≠ []) (hnn : ∀ e ∈ healthy, 0 ≤ e.avgResponseTime) :
    ∃ r, latencySelect healthy = some r ∧ r ∈ healthy ∧
      (∀ e ∈ healthy, 0 < e.avgResponseTime →
        0 < r.avgResponseTime ∧ r.avgResponseTime ≤ e.avgResponseTime) := by
  obtain ⟨r, hr, hmem, hmin⟩ := sortLat_head healthy hne
  refine ⟨r, hr, hmem, ?_⟩
  intro e he hepos
  have h := hmin e he (ne_of_gt hepos)
  exact ⟨lt_of_le_of_ne (hnn r hmem) (Ne.symm h.1), h.2⟩

theorem c7_latency_witness :
    ∃ r, latencySelect
        [freshEndpoint 0 ⟨"A", 1⟩,
         { freshEndpoint 0 ⟨"C", 1⟩ with avgResponseTime := 7 },
         { freshEndpoint 0 ⟨"D", 1⟩ with avgResponseTime := 3 }] = some r ∧
      r ∈ [freshEndpoint 0 ⟨"A", 1⟩,
           { freshEndpoint 0 ⟨"C", 1⟩ with avgResponseTime := 7 },
           { freshEndpoint 0 ⟨"D", 1⟩ with avgResponseTime := 3 }] ∧
      (∀ e ∈ [freshEndpoint 0 ⟨"A", 1⟩,
              { freshEndpoint 0 ⟨"C", 1⟩ with avgResponseTime := 7 },
              { freshEndpoint 0 ⟨"D", 1⟩ with avgResponseTime := 3 }],
        0 < e.avgResponseTime →
        0 < r.avgResponseTime ∧ r.avgResponseTime ≤ e.avgResponseTime) :=
  c7_latency_selects_min_positive _ (List.cons_ne_nil _ _) (by decide)

theorem rrRun_append (healthy : List Endpoint) (h : 0 < healthy.length)
    (m1 : Nat) : ∀ (m2 i : Nat),
    rrRun healthy (m1 + m2) i =
      ((rrRun healthy m1 i).1 ++ (rrRun healthy m2 (rrRun healthy m1 i).2).1,
       (rrRun healthy m2 (rrRun healthy m1 i).2).2) := by
  induction m1 with
  | zero => intro m2 i; rw [Nat.zero_add]; rfl
  | succ m ih =>
    intro m2 i
    have hsel : rrSelect healthy i =
        (some (healthy.get ⟨i % healthy.length, Nat.mod_lt i h⟩),
         (i + 1) % healthy.length) := by
      rw [rrSelect, dif_pos h]
    have harith : m + 1 + m2 = (m + m2) + 1 := by omega
    rw [harith]
    rw [rrRun, hsel]
    conv_rhs => rw [rrRun, hsel]
    simp only []
    rw [ih m2 ((i + 1) % healthy.length)]
    rfl

theorem rrRun_nowrap (healthy : List Endpoint) (h : 0 < healthy.length) :
    ∀ (m j : Nat), 0 < m → j + m ≤ healthy.length →
    rrRun healthy m j = ((healthy.drop j).take m, (j + m) % healthy.length) := by
  intro m
  induction m with
  | zero => intro j h0 _; exact absurd h0 (lt_irrefl 0)
  | succ m ih =>
    intro j _ hle
    have hj : j < healthy.length := by omega
    have hsel : rrSelect healthy j =
        (some (healthy.get ⟨j, hj⟩), (j + 1) % healthy.length) := by
      rw [rrSelect, dif_pos h]
      simp [Nat.mod_eq_of_lt hj]
    have hdrop : healthy.drop j = healthy.get ⟨j, hj⟩ :: healthy.drop (j + 1) := by
      rw [List.drop_eq_getElem_cons hj]
      simp
    cases m with
    | zero =>
      rw [rrRun, hsel]
      show ([healthy.get ⟨j, hj⟩], (j + 1) % healthy.length) = _
      rw [hdrop]
      rfl
    | succ m' =>
      rw [rrRun, hsel]
      have hj1 : (j + 1) % healthy.length = j + 1 := Nat.mod_eq_of_lt (by omega)
      simp only [hj1]
      rw [ih (j + 1) (Nat.succ_pos m') (by omega)]
      rw [hdrop]
      show (healthy.get ⟨j, hj⟩ :: (healthy.drop (j + 1)).take (m' + 1), _) = _
      have harith : j + 1 + (m' + 1) = j + (m' + 1 + 1) := by omega
      rw [harith]
      rfl

theorem rrRun_mod_start (healthy : List Endpoint) (h : 0 < healthy.length)
    (m i : Nat) (hm : 0 < m) :
    rrRun healthy m i = rrRun healthy m (i % healthy.length) := by
  cases m with
  | zero => exact absurd hm (lt_irrefl 0)
  | succ m' =>
    have h1 : rrSelect healthy i = rrSelect healthy (i % healthy.length) := by
      rw [rrSelect, rrSelect, dif_pos h, dif_pos h]
      simp only [Nat.mod_mod_of_dvd i dvd_rfl, Nat.mod_add_mod]
    conv_lhs => rw [rrRun]
    conv_rhs => rw [rrRun]
    rw [h1]

theorem rrRun_cycle_rotate (healthy : List Endpoint) (h : 0 < healthy.length)
    (i : Nat) :
    (rrRun healthy healthy.length i).1 = healthy.rotate (i % healthy.length) := by
  have hj : i % healthy.length < healthy.length := Nat.mod_lt i h
  rw [rrRun_mod_start healthy h healthy.length i h]
  by_cases hj0 : i % healthy.length = 0
  · rw [hj0, rrRun_nowrap healthy h healthy.length 0 h (by omega)]
    simp [List.rotate_zero, List.take_length]
  · have hm1 : 0 < healthy.length - i % healthy.length := by omega
    have happ := rrRun_append healthy h (healthy.length - i % healthy.length)
      (i % healthy.length) (i % healthy.length)
    rw [Nat.sub_add_cancel (le_of_lt hj)] at happ
    rw [happ]
    rw [rrRun_nowrap healthy h (healthy.length - i % healthy.length)
      (i % healthy.length) hm1 (by omega)]
    have hcur : (i % healthy.length + (healthy.length - i % healthy.length)) %
        healthy.length = 0 := by
      rw [Nat.add_sub_cancel' (le_of_lt hj), Nat.mod_self]
    simp only [hcur]
    rw [rrRun_nowrap healthy h (i % healthy.length) 0 (by omega) (by omega)]
    have hlen : healthy.length - i % healthy.length =
        (healthy.drop (i % healthy.length)).length := (List.length_drop _ _).symm
    rw [List.rotate_eq_drop_append_take (le_of_lt hj)]
    simp only [List.drop_zero]
    rw [hlen, List.take_length]

/-- C8: over a fixed healthy list of `k ≥ 1` endpoints, `k` consecutive
round-robin selections starting from any cursor return a permutation of
the list — with distinct endpoints, each one exactly once. -/
theorem c8_round_robin_cycle (healthy : List Endpoint) (i : Nat)
    (h : 0 < healthy.length) :
    ((rrRun healthy healthy.length i).1).Perm healthy ∧
    (healthy.Nodup → ∀ e ∈ healthy,
      (rrRun healthy healthy.length i).1.count e = 1) := by
  have hrot := rrRun_cycle_rotate healthy h i
  constructor
  · rw [hrot]
    exact List.rotate_perm healthy (i % healthy.length)
  · intro hnd e he
    rw [hrot, (List.rotate_perm healthy (i % healthy.length)).count_eq e]
    exact List.count_eq_one_of_mem hnd he

theorem c8_round_robin_cycle_witness :
    ((rrRun [freshEndpoint 0 ⟨"A", 1⟩, freshEndpoint 0 ⟨"B", 1⟩] 2 5).1).Perm
        [freshEndpoint 0 ⟨"A", 1⟩, freshEndpoint 0 ⟨"B", 1⟩] ∧
    ([freshEndpoint 0 ⟨"A", 1⟩, freshEndpoint 0 ⟨"B", 1⟩].Nodup →
      ∀ e ∈ [freshEndpoint 0 ⟨"A", 1⟩, freshEndpoint 0 ⟨"B", 1⟩],
        ((rrRun [freshEndpoint 0 ⟨"A", 1⟩, freshEndpoint 0 ⟨"B", 1⟩] 2 5).1).count e = 1) :=
  c8_round_robin_cycle [freshEndpoint 0 ⟨"A", 1⟩, freshEndpoint 0 ⟨"B", 1⟩] 5
    (by decide)

/-! ### Weighted round-robin lemmas (C3, C10) -/

theorem maxWeight_spec (healthy : List Endpoint) (hne : healthy ≠ []) :
    (∃ e ∈ healthy, e.weight = maxWeight healthy) ∧
    ∀ e ∈ healthy, e.weight ≤ maxWeight healthy := by
  obtain ⟨a, ha⟩ : ∃ a, (healthy.map (fun e => e.weight)).max? = some a := by
    cases h : (healthy.map (fun e => e.weight)).max? with
    | none =>
      rw [List.max?_eq_none_iff] at h
      exact absurd (List.map_eq_nil_iff.mp h) hne
    | some a => exact ⟨a, rfl⟩
  haveI : Std.Antisymm (fun (x1 x2 : Int) => x1 ≤ x2) :=
    ⟨fun h1 h2 => le_antisymm h1 h2⟩
  have hspec := (List.max?_eq_some_iff (fun a => le_refl a)
    (fun a b => max_choice a b) (fun a b c => max_le_iff)).mp ha
  have hmw : maxWeight healthy = a := by
    rw [maxWeight, ha]
  constructor
  · obtain ⟨e, he, heq⟩ := List.mem_map.mp hspec.1
    exact ⟨e, he, by rw [heq, hmw]⟩
  · intro e he
    rw [hmw]
    exact hspec.2 e.weight (List.mem_map.mpr ⟨e, he, rfl⟩)

theorem wrrIter_add (healthy : List Endpoint) (a : Nat) :
    ∀ (b : Nat) (s : WrrState),
    wrrIter healthy (a + b) s = wrrIter healthy b (wrrIter healthy a s) := by
  induction a with
  | zero => intro b s; rw [Nat.zero_add]; rfl
  | succ a ih =>
    intro b s
    have h : a + 1 + b = (a + b) + 1 := by omega
    rw [h]
    show wrrIter healthy (a + b) (wrrStep healthy s) = _
    rw [ih b (wrrStep healthy s)]
    rfl

theorem wrrHits_add (healthy : List Endpoint) (a : Nat) :
    ∀ (b : Nat) (s : WrrState),
    wrrHits healthy (a + b) s =
      wrrHits healthy a s ++ wrrHits healthy b (wrrIter healthy a s) := by
  induction a with
  | zero => intro b s; rw [Nat.zero_add]; rfl
  | succ a ih =>
    intro b s
    have h : a + 1 + b = (a + b) + 1 := by omega
    rw [h]
    show (wrrHitE healthy (wrrStep healthy s)).toList ++
        wrrHits healthy (a + b) (wrrStep healthy s) = _
    rw [ih b (wrrStep healthy s)]
    show _ = (wrrHitE healthy (wrrStep healthy s)).toList ++
        wrrHits healthy a (wrrStep healthy s) ++ _
    rw [List.append_assoc]
    rfl

theorem wrrInv_step (healthy : List Endpoint) (h : 0 < healthy.length)
    (s : WrrState) (hs : wrrInv healthy s) :
    wrrInv healthy (wrrStep healthy s) := by
  constructor
  · exact Nat.mod_lt _ h
  · show (if (s.currentIndex + 1) % healthy.length = 0
        then wrrDec healthy s.currentWeight else s.currentWeight) ≤ _
    have hcw := hs.2
    split
    · rw [wrrDec]
      split
      · exact le_refl _
      · omega
    · exact hcw

theorem wrrInv_iter (healthy : List Endpoint) (h : 0 < healthy.length)
    (t : Nat) :
    ∀ (s : WrrState), wrrInv healthy s → wrrInv healthy (wrrIter healthy t s) := by
  induction t with
  | zero => exact fun s hs => hs
  | succ t ih =>
    intro s hs
    exact ih (wrrStep healthy s) (wrrInv_step healthy h s hs)

theorem wrrIter_index (healthy : List Endpoint) (h : 0 < healthy.length) (t : Nat) :
    ∀ (s : WrrState), s.currentIndex < healthy.length →
    (wrrIter healthy t s).currentIndex =
      (s.currentIndex + t) % healthy.length := by
  induction t with
  | zero =>
    intro s hs
    show s.currentIndex = _
    rw [Nat.add_zero, Nat.mod_eq_of_lt hs]
  | succ t ih =>
    intro s hs
    show (wrrIter healthy t (wrrStep healthy s)).currentIndex = _
    rw [ih (wrrStep healthy s) (Nat.mod_lt _ h)]
    show ((s.currentIndex + 1) % healthy.length + t) % healthy.length = _
    rw [Nat.mod_add_mod]
    congr 1
    omega

theorem wrr_hit_within (healthy : List Endpoint) (hne : healthy ≠ [])
    (s : WrrState) (hs : wrrInv healthy s) :
    ∃ t, 1 ≤ t ∧ t ≤ healthy.length ∧
      (wrrHitE healthy (wrrIter healthy t s)).isSome = true := by
  have h : 0 < healthy.length := List.length_pos.mpr hne
  have hsi := hs.1
  obtain ⟨⟨e0, he0, hw0⟩, _⟩ := maxWeight_spec healthy hne
  obtain ⟨⟨j, hj⟩, hget⟩ := List.mem_iff_get.mp he0
  obtain ⟨t, ht1, htn, htj⟩ :
      ∃ t, 1 ≤ t ∧ t ≤ healthy.length ∧
        (s.currentIndex + t) % healthy.length = j := by
    by_cases hc : s.currentIndex < j
    · refine ⟨j - s.currentIndex, by omega, by omega, ?_⟩
      have hh : s.currentIndex + (j - s.currentIndex) = j := by omega
      rw [hh, Nat.mod_eq_of_lt hj]
    · refine ⟨j + healthy.length - s.currentIndex, by omega, by omega, ?_⟩
      have hh : s.currentIndex + (j + healthy.length - s.currentIndex) =
          j + healthy.length := by omega
      rw [hh, Nat.add_mod_right, Nat.mod_eq_of_lt hj]
  refine ⟨t, ht1, htn, ?_⟩
  have hidx : (wrrIter healthy t s).currentIndex = j := by
    rw [wrrIter_index healthy h t s hs.1, htj]
  have hinv := wrrInv_iter healthy h t s hs
  rw [wrrHitE, hidx]
  have hg : healthy.get? j = some e0 := by
    rw [List.get?_eq_get hj, hget]
  rw [hg]
  have hcw : (wrrIter healthy t s).currentWeight ≤ e0.weight := by
    rw [hw0]; exact hinv.2
  show (if (wrrIter healthy t s).currentWeight ≤ e0.weight
      then some e0 else none).isSome = true
  rw [if_pos hcw]
  rfl

theorem wrrHitE_mem (healthy : List Endpoint) (s : WrrState) (e : Endpoint)
    (h : wrrHitE healthy s = some e) : e ∈ healthy := by
  rw [wrrHitE] at h
  cases hg : healthy.get? s.currentIndex with
  | none => rw [hg] at h; cases h
  | some x =>
    rw [hg] at h
    have h' : (if s.currentWeight ≤ x.weight then some x else none) = some e := h
    by_cases hc : s.currentWeight ≤ x.weight
    · rw [if_pos hc] at h'
      injection h' with h'
      subst h'
      exact List.get?_mem hg
    · rw [if_neg hc] at h'
      cases h'

theorem selectFuel_spec (healthy : List Endpoint) :
    ∀ (fuel t : Nat) (s : WrrState) (e : Endpoint),
    1 ≤ t → t ≤ fuel →
    wrrHitE healthy (wrrIter healthy t s) = some e →
    (∀ u, 1 ≤ u → u < t → wrrHitE healthy (wrrIter healthy u s) = none) →
    selectFuel healthy fuel s = some (e, wrrIter healthy t s) := by
  intro fuel
  induction fuel with
  | zero =>
    intro t s e h1 ht _ _
    exact absurd (h1.trans ht) (by omega)
  | succ fuel ih =>
    intro t s e h1 ht hhit hmin
    obtain ⟨t', rfl⟩ : ∃ t', t = t' + 1 := ⟨t - 1, by omega⟩
    by_cases ht0 : t' = 0
    · subst ht0
      have hh : wrrHitE healthy (wrrStep healthy s) = some e := hhit
      rw [selectFuel]
      simp only [hh]
      rfl
    · have hnone : wrrHitE healthy (wrrStep healthy s) = none :=
        hmin 1 (le_refl 1) (by omega)
      rw [selectFuel]
      simp only [hnone]
      exact ih t' (wrrStep healthy s) e (by omega) (by omega) hhit
        (fun u hu1 hu2 => hmin (u + 1) (by omega) (by omega))

/-- C10: for a non-empty healthy snapshot with positive weights, the
`while (true)` loop of the weighted round-robin `selectEndpoint`
terminates from every state satisfying the reachable-state invariant
(cursor in range, current weight at most the maximum weight): at most
`healthy.length` loop iterations are needed, so running the loop with
fuel `healthy.length` returns an endpoint of the snapshot, and the
invariant is preserved. -/
theorem c10_wrr_select_terminates (healthy : List Endpoint) (s : WrrState)
    (hne : healthy ≠ []) (hs : wrrInv healthy s) :
    ∃ e s', selectFuel healthy healthy.length s = some (e, s') ∧
      e ∈ healthy ∧ wrrInv healthy s' := by
  obtain ⟨t, h1, htn, hsome⟩ := wrr_hit_within healthy hne s hs
  have hex : ∃ u, 1 ≤ u ∧ (wrrHitE healthy (wrrIter healthy u s)).isSome = true :=
    ⟨t, h1, hsome⟩
  have hP := Nat.find_spec hex
  have ht0le : Nat.find hex ≤ t := Nat.find_min' hex ⟨h1, hsome⟩
  obtain ⟨e, he⟩ := Option.isSome_iff_exists.mp hP.2
  have hsel := selectFuel_spec healthy healthy.length (Nat.find hex) s e hP.1
    (ht0le.trans htn) he
    (fun u hu1 hu2 => by
      have hnot := Nat.find_min hex hu2
      cases h : wrrHitE healthy (wrrIter healthy u s) with
      | none => rfl
      | some x => exact absurd ⟨hu1, by rw [h]; rfl⟩ hnot)
  exact ⟨e, wrrIter healthy (Nat.find hex) s, hsel, wrrHitE_mem healthy _ e he,
    wrrInv_iter healthy (List.length_pos.mpr hne) _ s hs⟩

theorem c10_wrr_select_terminates_witness :
    ∃ e s', selectFuel
        [{ freshEndpoint 0 ⟨"A", 2⟩ with weight := 2 }, freshEndpoint 0 ⟨"B", 1⟩] 2
        ⟨0, 0⟩ = some (e, s') ∧
      e ∈ [{ freshEndpoint 0 ⟨"A", 2⟩ with weight := 2 }, freshEndpoint 0 ⟨"B", 1⟩] ∧
      wrrInv [{ freshEndpoint 0 ⟨"A", 2⟩ with weight := 2 }, freshEndpoint 0 ⟨"B", 1⟩] s' :=
  c10_wrr_select_terminates
    [{ freshEndpoint 0 ⟨"A", 2⟩ with weight := 2 }, freshEndpoint 0 ⟨"B", 1⟩]
    ⟨0, 0⟩ (List.cons_ne_nil _ _) ⟨by decide, by decide⟩

theorem wrr_seg (healthy : List Endpoint) :
    ∀ (m i : Nat) (c : Int), i + 1 + m = healthy.length →
    wrrHits healthy m ⟨i, c⟩ =
      (healthy.drop (i + 1)).filter (fun e => c ≤ e.weight) ∧
    wrrIter healthy m ⟨i, c⟩ = ⟨healthy.length - 1, c⟩ := by
  intro m
  induction m with
  | zero =>
    intro i c hlen
    constructor
    · show ([] : List Endpoint) = _
      rw [show i + 1 = healthy.length by omega, List.drop_length]
      rfl
    · show (⟨i, c⟩ : WrrState) = _
      rw [show i = healthy.length - 1 by omega]
  | succ m ih =>
    intro i c hlen
    have hi1 : i + 1 < healthy.length := by omega
    have hstep : wrrStep healthy ⟨i, c⟩ = ⟨i + 1, c⟩ := by
      rw [wrrStep]
      simp only [Nat.mod_eq_of_lt hi1]
      rw [if_neg (by omega)]
    obtain ⟨x, hx⟩ : ∃ x, healthy.get? (i + 1) = some x :=
      ⟨healthy.get ⟨i + 1, hi1⟩, List.get?_eq_get hi1⟩
    have hxval : healthy.get ⟨i + 1, hi1⟩ = x := by
      have := List.get?_eq_get hi1 (l := healthy)
      rw [hx] at this
      injection this with h
      exact h.symm
    have hdrop : healthy.drop (i + 1) = x :: healthy.drop (i + 2) := by
      rw [List.drop_eq_getElem_cons hi1]
      rw [← List.get_eq_getElem healthy ⟨i + 1, hi1⟩, hxval]
    have hhit : wrrHitE healthy ⟨i + 1, c⟩ =
        if c ≤ x.weight then some x else none := by
      rw [wrrHitE]
      show (match healthy.get? (i + 1) with
        | some e => if c ≤ e.weight then some e else none
        | none => none) = _
      rw [hx]
    obtain ⟨ihh, ihi⟩ := ih (i + 1) c (by omega)
    constructor
    · show (wrrHitE healthy (wrrStep healthy ⟨i, c⟩)).toList ++
          wrrHits healthy m (wrrStep healthy ⟨i, c⟩) = _
      rw [hstep, hhit, ihh, hdrop, List.filter_cons]
      by_cases hcx : c ≤ x.weight
      · rw [if_pos hcx, if_pos (by exact decide_eq_true hcx)]
        rfl
      · rw [if_neg hcx, if_neg (by simpa using hcx)]
        rfl
    · show wrrIter healthy m (wrrStep healthy ⟨i, c⟩) = _
      rw [hstep, ihi]

theorem wrr_pass (healthy : List Endpoint) (h : 0 < healthy.length) (c : Int) :
    wrrHits healthy healthy.length ⟨healthy.length - 1, c⟩ =
      healthy.filter (fun e => wrrDec healthy c ≤ e.weight) ∧
    wrrIter healthy healthy.length ⟨healthy.length - 1, c⟩ =
      ⟨healthy.length - 1, wrrDec healthy c⟩ := by
  have hwrap : (healthy.length - 1 + 1) % healthy.length = 0 := by
    rw [show healthy.length - 1 + 1 = healthy.length by omega, Nat.mod_self]
  have hstep : wrrStep healthy ⟨healthy.length - 1, c⟩ = ⟨0, wrrDec healthy c⟩ := by
    rw [wrrStep]
    simp only [hwrap]
    rw [if_pos trivial]
  cases healthy with
  | nil => exact absurd h (lt_irrefl 0)
  | cons y t =>
    have hstep' : wrrStep (y :: t) ⟨(y :: t).length - 1, c⟩ =
        ⟨0, wrrDec (y :: t) c⟩ := hstep
    have hhit : wrrHitE (y :: t) ⟨0, wrrDec (y :: t) c⟩ =
        if wrrDec (y :: t) c ≤ y.weight then some y else none := by
      rw [wrrHitE]
      show (match (y :: t).get? 0 with
        | some e => if wrrDec (y :: t) c ≤ e.weight then some e else none
        | none => none) = _
      rfl
    obtain ⟨segh, segi⟩ := wrr_seg (y :: t) t.length 0 (wrrDec (y :: t) c)
      (by simp [Nat.add_comm])
    constructor
    · show (wrrHitE (y :: t) (wrrStep (y :: t) ⟨(y :: t).length - 1, c⟩)).toList ++
          wrrHits (y :: t) t.length (wrrStep (y :: t) ⟨(y :: t).length - 1, c⟩) = _
      rw [hstep', hhit, segh]
      show _ = List.filter (fun e => decide (wrrDec (y :: t) c ≤ e.weight)) (y :: t)
      rw [List.filter_cons]
      have hdropone : (y :: t).drop (0 + 1) = t := rfl
      rw [hdropone]
      by_cases hcy : wrrDec (y :: t) c ≤ y.weight
      · rw [if_pos hcy, if_pos (by exact decide_eq_true hcy)]
        rfl
      · rw [if_neg hcy, if_neg (by simpa using hcy)]
        rfl
    · show wrrIter (y :: t) t.length (wrrStep (y :: t) ⟨(y :: t).length - 1, c⟩) = _
      rw [hstep', segi]

theorem count_filter_endpoint (e : Endpoint) (p : Endpoint → Bool) (l : List Endpoint) :
    (l.filter p).count e = if p e then l.count e else 0 := by
  by_cases hp : p e
  · rw [if_pos hp, List.count_filter hp]
  · rw [if_neg hp, List.count_eq_zero]
    intro hmem
    exact hp (List.of_mem_filter hmem)

theorem sum_min_succ (c : Nat) : ∀ (l : List Endpoint), (∀ e ∈ l, 1 ≤ e.weight) →
    (l.filter (fun e => ((c : Int) + 1 ≤ e.weight))).length +
      (l.map (fun e => min e.weight.toNat c)).sum =
    (l.map (fun e => min e.weight.toNat (c + 1))).sum := by
  intro l
  induction l with
  | nil => intro _; rfl
  | cons x t ih =>
    intro hw
    have hx := hw x (List.mem_cons_self x t)
    have ihs := ih (fun e he => hw e (List.mem_cons_of_mem x he))
    rw [List.filter_cons, List.map_cons, List.map_cons, List.sum_cons, List.sum_cons]
    by_cases hcx : (c : Int) + 1 ≤ x.weight
    · rw [if_pos (decide_eq_true hcx)]
      simp only [List.length_cons]
      have hxmin : min x.weight.toNat (c + 1) = min x.weight.toNat c + 1 := by omega
      omega
    · rw [if_neg (by simpa using hcx)]
      have hxmin : min x.weight.toNat (c + 1) = min x.weight.toNat c := by omega
      omega

theorem wrr_descend (healthy : List Endpoint) (h : 0 < healthy.length)
    (hw : ∀ e ∈ healthy, 1 ≤ e.weight) :
    ∀ (c : Nat), (c : Int) ≤ maxWeight healthy →
    wrrIter healthy (healthy.length * c) ⟨healthy.length - 1, (c : Int) + 1⟩ =
      ⟨healthy.length - 1, 1⟩ ∧
    (∀ e ∈ healthy,
      (wrrHits healthy (healthy.length * c)
        ⟨healthy.length - 1, (c : Int) + 1⟩).count e =
        min e.weight.toNat c * healthy.count e) ∧
    (wrrHits healthy (healthy.length * c)
        ⟨healthy.length - 1, (c : Int) + 1⟩).length =
      (healthy.map (fun e => min e.weight.toNat c)).sum := by
  intro c
  induction c with
  | zero =>
    intro _
    refine ⟨?_, ?_, ?_⟩
    · show (⟨healthy.length - 1, ((0 : Nat) : Int) + 1⟩ : WrrState) = _
      norm_num
    · intro e he
      show (([] : List Endpoint)).count e = _
      simp
    · show ([] : List Endpoint).length = _
      simp
  | succ c ih =>
    intro hc
    have hc' : (c : Int) ≤ maxWeight healthy := by push_cast at hc ⊢; omega
    obtain ⟨ihi, ihc, ihl⟩ := ih hc'
    have hdec : wrrDec healthy (((c + 1 : Nat) : Int) + 1) = (c : Int) + 1 := by
      rw [wrrDec, if_neg (by push_cast; omega)]
      push_cast
      ring
    obtain ⟨ph, pi⟩ := wrr_pass healthy h (((c + 1 : Nat) : Int) + 1)
    have hsplit : healthy.length * (c + 1) =
        healthy.length + healthy.length * c := by ring
    have hadd := wrrHits_add healthy healthy.length (healthy.length * c)
      ⟨healthy.length - 1, ((c + 1 : Nat) : Int) + 1⟩
    have hiadd := wrrIter_add healthy healthy.length (healthy.length * c)
      ⟨healthy.length - 1, ((c + 1 : Nat) : Int) + 1⟩
    rw [pi, hdec] at hadd hiadd
    rw [ph, hdec] at hadd
    refine ⟨?_, ?_, ?_⟩
    · rw [hsplit, hiadd, ihi]
    · intro e he
      rw [hsplit, hadd, List.count_append, count_filter_endpoint, ihc e he]
      have hwe := hw e he
      by_cases hcx : (c : Int) + 1 ≤ e.weight
      · rw [if_pos (decide_eq_true hcx)]
        have h1 : min e.weight.toNat c = c := by omega
        have h2 : min e.weight.toNat (c + 1) = c + 1 := by omega
        rw [h1, h2, Nat.succ_mul]
        ring
      · rw [if_neg (by simpa using hcx)]
        have h1 : min e.weight.toNat (c + 1) = min e.weight.toNat c := by omega
        rw [h1, Nat.zero_add]
    · rw [hsplit, hadd, List.length_append, ihl, sum_min_succ c healthy hw]

theorem wrr_start_dec (healthy : List Endpoint) (h : 0 < healthy.length)
    (c c' : Int) (hdec : wrrDec healthy c = wrrDec healthy c') :
    (∀ m, wrrHits healthy m ⟨healthy.length - 1, c⟩ =
      wrrHits healthy m ⟨healthy.length - 1, c'⟩) ∧
    (∀ m, 1 ≤ m → wrrIter healthy m ⟨healthy.length - 1, c⟩ =
      wrrIter healthy m ⟨healthy.length - 1, c'⟩) := by
  have hwrap : (healthy.length - 1 + 1) % healthy.length = 0 := by
    rw [show healthy.length - 1 + 1 = healthy.length by omega, Nat.mod_self]
  have hstep : wrrStep healthy ⟨healthy.length - 1, c⟩ =
      wrrStep healthy ⟨healthy.length - 1, c'⟩ := by
    rw [wrrStep, wrrStep]
    simp only [hwrap]
    rw [if_pos trivial, if_pos trivial, hdec]
  constructor
  · intro m
    cases m with
    | zero => rfl
    | succ m =>
      show (wrrHitE healthy (wrrStep healthy _)).toList ++
          wrrHits healthy m (wrrStep healthy _) = _
      rw [hstep]
      rfl
  · intro m hm
    obtain ⟨m', rfl⟩ : ∃ m', m = m' + 1 := ⟨m - 1, by omega⟩
    show wrrIter healthy m' (wrrStep healthy _) = _
    rw [hstep]
    rfl

theorem wrr_cycle (healthy : List Endpoint) (h : 0 < healthy.length)
    (hw : ∀ e ∈ healthy, 1 ≤ e.weight) (hmw1 : 1 ≤ maxWeight healthy) :
    wrrIter healthy (healthy.length * (maxWeight healthy).toNat)
      ⟨healthy.length - 1, 1⟩ = ⟨healthy.length - 1, 1⟩ ∧
    (∀ e ∈ healthy,
      (wrrHits healthy (healthy.length * (maxWeight healthy).toNat)
        ⟨healthy.length - 1, 1⟩).count e = e.weight.toNat * healthy.count e) ∧
    (wrrHits healthy (healthy.length * (maxWeight healthy).toNat)
        ⟨healthy.length - 1, 1⟩).length =
      (healthy.map (fun e => e.weight.toNat)).sum := by
  have hM : (((maxWeight healthy).toNat : Nat) : Int) = maxWeight healthy :=
    Int.toNat_of_nonneg (by omega)
  have hdec : wrrDec healthy 1 =
      wrrDec healthy ((((maxWeight healthy).toNat : Nat) : Int) + 1) := by
    rw [wrrDec, wrrDec, if_pos (by omega), if_neg (by omega)]
    omega
  obtain ⟨hbh, hbi⟩ := wrr_start_dec healthy h 1
    ((((maxWeight healthy).toNat : Nat) : Int) + 1) hdec
  obtain ⟨di, dc, dl⟩ := wrr_descend healthy h hw (maxWeight healthy).toNat
    (by omega)
  have hM1 : 1 ≤ (maxWeight healthy).toNat := by omega
  refine ⟨?_, ?_, ?_⟩
  · rw [hbi _ (Nat.mul_pos h hM1), di]
  · intro e he
    rw [hbh, dc e he]
    have hle := (maxWeight_spec healthy (by
      intro hnil
      rw [hnil] at h
      exact absurd h (lt_irrefl 0))).2 e he
    have : min e.weight.toNat (maxWeight healthy).toNat = e.weight.toNat := by
      omega
    rw [this]
  · rw [hbh, dl]
    congr 1
    refine List.map_congr_left ?_
    intro e he
    have hle := (maxWeight_spec healthy (by
      intro hnil
      rw [hnil] at h
      exact absurd h (lt_irrefl 0))).2 e he
    have hwe := hw e he
    omega

theorem wrrHits_nil_no_hit (healthy : List Endpoint) :
    ∀ (T : Nat) (s : WrrState), wrrHits healthy T s = [] →
    ∀ t, 1 ≤ t → t ≤ T → wrrHitE healthy (wrrIter healthy t s) = none := by
  intro T
  induction T with
  | zero => intro s _ t h1 h2; omega
  | succ T ih =>
    intro s hnil t h1 h2
    have hsplit : (wrrHitE healthy (wrrStep healthy s)).toList ++
        wrrHits healthy T (wrrStep healthy s) = [] := hnil
    obtain ⟨hhead, htail⟩ := List.append_eq_nil.mp hsplit
    have hnone : wrrHitE healthy (wrrStep healthy s) = none := by
      cases hh : wrrHitE healthy (wrrStep healthy s) with
      | none => rfl
      | some x => rw [hh] at hhead; cases hhead
    obtain ⟨t', rfl⟩ : ∃ t', t = t' + 1 := ⟨t - 1, by omega⟩
    cases Nat.eq_zero_or_pos t' with
    | inl h0 =>
      subst h0
      exact hnone
    | inr hpos =>
      exact ih (wrrStep healthy s) htail t' hpos (by omega)

theorem wrrHits_ne_nil_hit (healthy : List Endpoint) :
    ∀ (T : Nat) (s : WrrState), wrrHits healthy T s ≠ [] →
    ∃ t, 1 ≤ t ∧ t ≤ T ∧ (wrrHitE healthy (wrrIter healthy t s)).isSome = true := by
  intro T
  induction T with
  | zero => intro s hne; exact absurd rfl hne
  | succ T ih =>
    intro s hne
    cases hh : wrrHitE healthy (wrrStep healthy s) with
    | some x =>
      refine ⟨1, le_refl 1, by omega, ?_⟩
      show (wrrHitE healthy (wrrStep healthy s)).isSome = true
      rw [hh]
      rfl
    | none =>
      have hnil : wrrHits healthy (T + 1) s =
          wrrHits healthy T (wrrStep healthy s) := by
        show (wrrHitE healthy (wrrStep healthy s)).toList ++ _ = _
        rw [hh]
        rfl
      rw [hnil] at hne
      obtain ⟨t, h1, h2, h3⟩ := ih (wrrStep healthy s) hne
      exact ⟨t + 1, by omega, by omega, h3⟩

theorem wrrHits_first (healthy : List Endpoint) :
    ∀ (t : Nat) (s : WrrState) (e : Endpoint), 1 ≤ t →
    wrrHitE healthy (wrrIter healthy t s) = some e →
    (∀ u, 1 ≤ u → u < t → wrrHitE healthy (wrrIter healthy u s) = none) →
    wrrHits healthy t s = [e] := by
  intro t
  induction t with
  | zero => intro s e h1 _ _; omega
  | succ t ih =>
    intro s e _ hhit hmin
    cases Nat.eq_zero_or_pos t with
    | inl h0 =>
      subst h0
      have hh : wrrHitE healthy (wrrStep healthy s) = some e := hhit
      show (wrrHitE healthy (wrrStep healthy s)).toList ++ wrrHits healthy 0 _ = _
      rw [hh]
      rfl
    | inr hpos =>
      have hnone : wrrHitE healthy (wrrStep healthy s) = none :=
        hmin 1 (le_refl 1) (by omega)
      show (wrrHitE healthy (wrrStep healthy s)).toList ++
          wrrHits healthy t (wrrStep healthy s) = _
      rw [hnone]
      show wrrHits healthy t (wrrStep healthy s) = [e]
      exact ih (wrrStep healthy s) e hpos hhit
        (fun u hu1 hu2 => hmin (u + 1) (by omega) (by omega))

theorem wrr_select_first (healthy : List Endpoint) (hne : healthy ≠ [])
    (s : WrrState) (hs : wrrInv healthy s) :
    ∃ t0 e, 1 ≤ t0 ∧ t0 ≤ healthy.length ∧
      wrrHitE healthy (wrrIter healthy t0 s) = some e ∧
      (∀ u, 1 ≤ u → u < t0 → wrrHitE healthy (wrrIter healthy u s) = none) ∧
      selectFuel healthy healthy.length s = some (e, wrrIter healthy t0 s) := by
  obtain ⟨t, h1, htn, hsome⟩ := wrr_hit_within healthy hne s hs
  have hex : ∃ u, 1 ≤ u ∧ (wrrHitE healthy (wrrIter healthy u s)).isSome = true :=
    ⟨t, h1, hsome⟩
  have hP := Nat.find_spec hex
  have ht0le : Nat.find hex ≤ t := Nat.find_min' hex ⟨h1, hsome⟩
  obtain ⟨e, he⟩ := Option.isSome_iff_exists.mp hP.2
  have hmin : ∀ u, 1 ≤ u → u < Nat.find hex →
      wrrHitE healthy (wrrIter healthy u s) = none := by
    intro u hu1 hu2
    have hnot := Nat.find_min hex hu2
    cases hcase : wrrHitE healthy (wrrIter healthy u s) with
    | none => rfl
    | some x => exact absurd ⟨hu1, by rw [hcase]; rfl⟩ hnot
  exact ⟨Nat.find hex, e, hP.1, ht0le.trans htn, he, hmin,
    selectFuel_spec healthy healthy.length (Nat.find hex) s e hP.1
      (ht0le.trans htn) he hmin⟩

theorem wrrRun_eq_hits (healthy : List Endpoint) (hne : healthy ≠ []) :
    ∀ (m T : Nat) (s : WrrState), wrrInv healthy s →
    (wrrHits healthy T s).length = m →
    (T = 0 ∨ (1 ≤ T ∧ (wrrHitE healthy (wrrIter healthy T s)).isSome = true)) →
    wrrRun healthy m s = some (wrrHits healthy T s, wrrIter healthy T s) := by
  intro m
  induction m with
  | zero =>
    intro T s _ hlen hT
    have hnil : wrrHits healthy T s = [] := List.length_eq_zero.mp hlen
    cases hT with
    | inl h0 =>
      subst h0
      rfl
    | inr hT =>
      have := wrrHits_nil_no_hit healthy T s hnil T hT.1 (le_refl T)
      rw [this] at hT
      cases hT.2
  | succ m ih =>
    intro T s hs hlen hT
    have hnnil : wrrHits healthy T s ≠ [] := by
      intro hnil
      rw [hnil] at hlen
      cases hlen
    cases hT with
    | inl h0 =>
      subst h0
      exact absurd rfl hnnil
    | inr hT =>
      obtain ⟨t0, e, ht01, ht0n, he, hmin, hsel⟩ :=
        wrr_select_first healthy hne s hs
      have ht0T : t0 ≤ T := by
        by_contra hgt
        have := hmin T hT.1 (by omega)
        rw [this] at hT
        cases hT.2
      have hfirst : wrrHits healthy t0 s = [e] :=
        wrrHits_first healthy t0 s e ht01 he hmin
      have hTsplit : T = t0 + (T - t0) := by omega
      have hhits : wrrHits healthy T s =
          [e] ++ wrrHits healthy (T - t0) (wrrIter healthy t0 s) := by
        conv_lhs => rw [hTsplit]
        rw [wrrHits_add, hfirst]
      have hiter : wrrIter healthy T s =
          wrrIter healthy (T - t0) (wrrIter healthy t0 s) := by
        conv_lhs => rw [hTsplit]
        rw [wrrIter_add]
      have hlen' : (wrrHits healthy (T - t0) (wrrIter healthy t0 s)).length = m := by
        rw [hhits] at hlen
        simpa using hlen
      have hinv' : wrrInv healthy (wrrIter healthy t0 s) :=
        wrrInv_iter healthy (List.length_pos.mpr hne) t0 s hs
      have hcond' : T - t0 = 0 ∨ (1 ≤ T - t0 ∧
          (wrrHitE healthy (wrrIter healthy (T - t0)
            (wrrIter healthy t0 s))).isSome = true) := by
        cases Nat.eq_zero_or_pos (T - t0) with
        | inl h0 => exact Or.inl h0
        | inr hpos =>
          refine Or.inr ⟨hpos, ?_⟩
          rw [← hiter]
          exact hT.2
      have hrest := ih (T - t0) (wrrIter healthy t0 s) hinv' hlen' hcond'
      show (match selectFuel healthy healthy.length s with
        | some (e, s1) =>
          match wrrRun healthy m s1 with
          | some (l, s2) => some (e :: l, s2)
          | none => none
        | none => none) = _
      rw [hsel]
      show (match wrrRun healthy m (wrrIter healthy t0 s) with
        | some (l, s2) => some (e :: l, s2)
        | none => none) = _
      rw [hrest, hhits, hiter]
      rfl

theorem wrr_cycles (healthy : List Endpoint) (h : 0 < healthy.length)
    (hw : ∀ e ∈ healthy, 1 ≤ e.weight) (hmw1 : 1 ≤ maxWeight healthy) (m : Nat) :
    wrrIter healthy (healthy.length * (maxWeight healthy).toNat * m)
      ⟨healthy.length - 1, 1⟩ = ⟨healthy.length - 1, 1⟩ ∧
    (∀ e ∈ healthy,
      (wrrHits healthy (healthy.length * (maxWeight healthy).toNat * m)
        ⟨healthy.length - 1, 1⟩).count e = m * (e.weight.toNat * healthy.count e)) ∧
    (wrrHits healthy (healthy.length * (maxWeight healthy).toNat * m)
        ⟨healthy.length - 1, 1⟩).length =
      m * (healthy.map (fun e => e.weight.toNat)).sum := by
  induction m with
  | zero =>
    refine ⟨rfl, ?_, ?_⟩
    · intro e _
      simp [Nat.mul_zero, wrrHits]
    · simp [Nat.mul_zero, wrrHits]
  | succ m ih =>
    obtain ⟨ihi, ihc, ihl⟩ := ih
    obtain ⟨ci, cc, cl⟩ := wrr_cycle healthy h hw hmw1
    have hsplit : healthy.length * (maxWeight healthy).toNat * (m + 1) =
        healthy.length * (maxWeight healthy).toNat +
          healthy.length * (maxWeight healthy).toNat * m := by ring
    have hadd := wrrHits_add healthy (healthy.length * (maxWeight healthy).toNat)
      (healthy.length * (maxWeight healthy).toNat * m) ⟨healthy.length - 1, 1⟩
    have hiadd := wrrIter_add healthy (healthy.length * (maxWeight healthy).toNat)
      (healthy.length * (maxWeight healthy).toNat * m) ⟨healthy.length - 1, 1⟩
    rw [ci] at hadd hiadd
    refine ⟨?_, ?_, ?_⟩
    · rw [hsplit, hiadd, ihi]
    · intro e he
      rw [hsplit, hadd, List.count_append, cc e he, ihc e he, Nat.succ_mul]
      ring
    · rw [hsplit, hadd, List.length_append, cl, ihl, Nat.succ_mul]
      ring

/-- C3: from the cycle-start state `⟨n-1, 1⟩` (reached from the initial
balancer state `⟨0, 0⟩` after finitely many loop iterations), any
`m * sum(wi)` consecutive weighted-round-robin `selectEndpoint()` calls
over a fixed healthy snapshot with positive weights return each endpoint
`e` exactly `m * e.weight` times and leave the balancer back in the
cycle-start state — so the selection frequency is exactly proportional
to weight. -/
theorem c3_weighted_fairness (healthy : List Endpoint) (m : Nat)
    (hne : healthy ≠ []) (hw : ∀ e ∈ healthy, 1 ≤ e.weight) :
    ∃ l : List Endpoint,
      wrrRun healthy (m * (healthy.map (fun e => e.weight.toNat)).sum)
        ⟨healthy.length - 1, 1⟩ =
        some (l, ⟨healthy.length - 1, 1⟩) ∧
      l.length = m * (healthy.map (fun e => e.weight.toNat)).sum ∧
      (∀ e ∈ healthy, l.count e = m * (e.weight.toNat * healthy.count e)) ∧
      (healthy.Nodup → ∀ e ∈ healthy, l.count e = m * e.weight.toNat) ∧
      (∃ k, wrrIter healthy k ⟨0, 0⟩ = ⟨healthy.length - 1, 1⟩) := by
  have h : 0 < healthy.length := List.length_pos.mpr hne
  obtain ⟨⟨e0, he0, hw0⟩, hub⟩ := maxWeight_spec healthy hne
  have hmw1 : 1 ≤ maxWeight healthy := by
    have := hw e0 he0
    omega
  obtain ⟨ci, cc, cl⟩ := wrr_cycles healthy h hw hmw1 m
  have hsinv : wrrInv healthy ⟨healthy.length - 1, 1⟩ :=
    ⟨show healthy.length - 1 < healthy.length by omega,
     show (1 : Int) ≤ maxWeight healthy by omega⟩
  have hstar : (wrrHitE healthy ⟨healthy.length - 1, 1⟩).isSome = true := by
    obtain ⟨x, hx⟩ : ∃ x, healthy.get? (healthy.length - 1) = some x :=
      ⟨healthy.get ⟨healthy.length - 1, by omega⟩, List.get?_eq_get (by omega)⟩
    rw [wrrHitE]
    show (match healthy.get? (healthy.length - 1) with
      | some e => if (1 : Int) ≤ e.weight then some e else none
      | none => none).isSome = true
    rw [hx]
    have hx1 : (1 : Int) ≤ x.weight := hw x (List.get?_mem hx)
    show (if (1 : Int) ≤ x.weight then some x else none).isSome = true
    rw [if_pos hx1]
    rfl
  have hcond : healthy.length * (maxWeight healthy).toNat * m = 0 ∨
      (1 ≤ healthy.length * (maxWeight healthy).toNat * m ∧
        (wrrHitE healthy (wrrIter healthy
          (healthy.length * (maxWeight healthy).toNat * m)
          ⟨healthy.length - 1, 1⟩)).isSome = true) := by
    cases Nat.eq_zero_or_pos (healthy.length * (maxWeight healthy).toNat * m) with
    | inl h0 => exact Or.inl h0
    | inr hpos =>
      refine Or.inr ⟨hpos, ?_⟩
      rw [ci]
      exact hstar
  have hrun := wrrRun_eq_hits healthy hne
    (m * (healthy.map (fun e => e.weight.toNat)).sum)
    (healthy.length * (maxWeight healthy).toNat * m)
    ⟨healthy.length - 1, 1⟩ hsinv (by rw [cl]) hcond
  rw [ci] at hrun
  refine ⟨_, hrun, by rw [cl], cc, ?_, ?_⟩
  · intro hnd e he
    rw [cc e he, List.count_eq_one_of_mem hnd he, Nat.mul_one]
  · refine ⟨healthy.length - 1 + healthy.length * (maxWeight healthy).toNat, ?_⟩
    have hseg := (wrr_seg healthy (healthy.length - 1) 0 0 (by omega)).2
    have hdec0 : wrrDec healthy 0 = wrrDec healthy 1 := by
      rw [wrrDec, wrrDec, if_pos (by omega), if_pos (by omega)]
    obtain ⟨_, hbi⟩ := wrr_start_dec healthy h 0 1 hdec0
    rw [wrrIter_add, hseg,
      hbi (healthy.length * (maxWeight healthy).toNat)
        (Nat.mul_pos h (by omega))]
    have hcyc1 := (wrr_cycles healthy h hw hmw1 1).1
    have h1 : healthy.length * (maxWeight healthy).toNat * 1 =
        healthy.length * (maxWeight healthy).toNat := by ring
    rw [h1] at hcyc1
    exact hcyc1

theorem c3_weighted_fairness_witness :
    ∃ l : List Endpoint,
      wrrRun [freshEndpoint 0 ⟨"A", 2⟩, freshEndpoint 0 ⟨"B", 1⟩] 6 ⟨1, 1⟩ =
        some (l, ⟨1, 1⟩) ∧
      l.length = 6 ∧
      (∀ e ∈ [freshEndpoint 0 ⟨"A", 2⟩, freshEndpoint 0 ⟨"B", 1⟩],
        l.count e = 2 * (e.weight.toNat *
          [freshEndpoint 0 ⟨"A", 2⟩, freshEndpoint 0 ⟨"B", 1⟩].count e)) ∧
      ([freshEndpoint 0 ⟨"A", 2⟩, freshEndpoint 0 ⟨"B", 1⟩].Nodup →
        ∀ e ∈ [freshEndpoint 0 ⟨"A", 2⟩, freshEndpoint 0 ⟨"B", 1⟩],
          l.count e = 2 * e.weight.toNat) ∧
      (∃ k, wrrIter [freshEndpoint 0 ⟨"A", 2⟩, freshEndpoint 0 ⟨"B", 1⟩] k
        ⟨0, 0⟩ = ⟨1, 1⟩) :=
  c3_weighted_fairness [freshEndpoint 0 ⟨"A", 2⟩, freshEndpoint 0 ⟨"B", 1⟩] 2
    (List.cons_ne_nil _ _) (by decide)
